import Mathlib

/-!
Verification of the dynamic protobuf decoder/encoder core of `buf-kcat`
(package `internal/decoder`, plus the JSON-to-protobuf encoder in
`cmd/produce.go` / `internal/kafka/producer.go`).

The embedding models:

* the protobuf wire format for the scalar field kinds the tool's scenarios
  exercise (`string`, length-delimited, wire type 2; `uint64`, varint,
  wire type 0), following the spec's description of "standard protobuf
  wire-format rules (varint field tags, length-delimited/fixed/varint value
  encoding per field type)".  Bytes are `Nat`s; well-formed byte streams
  have entries below 256.
* the message-type registry (`loadDescriptorSet`, `loadMessage`,
  `MessageTypeCount`), with nested-message indexing.
* `Decode`/`decodeWithType` (wire bytes to JSON, default-omitting,
  proto-named fields) and `encodeMessage` (strict JSON to wire bytes).
* the schema-source classifier `isDescriptorSetFile`.

External protobuf-runtime behaviour that is not part of this repository
(`proto.Unmarshal` into descriptor messages, `protodesc` resolution) is
modelled from the spec where a claim depends on it, and
`protoregistry.Files.RegisterFile` is modelled with its full-name
conflict error, which `loadDescriptorSet` propagates fatally; each such
definition carries a comment saying what is abstracted.
JSON is modelled at the value level: a JSON object is an ordered list of
key/value pairs, and each field value is in its canonical protojson
representation.  Text-level concerns (indentation, escaping) are abstracted.
-/

namespace BufKcat

/-! ### Varint primitives (protobuf base-128 varints) -/

/-- Structural worker for `encodeVarint`; the fuel only bounds the
recursion depth and is always supplied large enough. -/
def encodeVarintGo : Nat → Nat → List Nat
  | 0, _ => []
  | fuel + 1, n =>
    if n < 128 then [n]
    else (n % 128 + 128) :: encodeVarintGo fuel (n / 128)

/-- Encode a natural number as a base-128 varint, least-significant group
first, continuation bit 0x80 on all but the last byte. -/
def encodeVarint (n : Nat) : List Nat := encodeVarintGo (n + 1) n

theorem encodeVarintGo_irrel :
    ∀ f₁ f₂ n, n < f₁ → n < f₂ → encodeVarintGo f₁ n = encodeVarintGo f₂ n := by
  intro f₁
  induction f₁ with
  | zero => intro f₂ n h₁; omega
  | succ f ih =>
    intro f₂ n h₁ h₂
    cases f₂ with
    | zero => omega
    | succ f' =>
      simp only [encodeVarintGo]
      by_cases h : n < 128
      · rw [if_pos h, if_pos h]
      · rw [if_neg h, if_neg h]
        have hlt : n / 128 < n := Nat.div_lt_self (by omega) (by omega)
        rw [ih f' (n / 128) (by omega) (by omega)]

/-- One-step unfolding of `encodeVarint`. -/
theorem encodeVarint_eq (n : Nat) :
    encodeVarint n =
      if n < 128 then [n] else (n % 128 + 128) :: encodeVarint (n / 128) := by
  show encodeVarintGo (n + 1) n = _
  simp only [encodeVarintGo]
  by_cases h : n < 128
  · rw [if_pos h, if_pos h]
  · rw [if_neg h, if_neg h]
    have hlt : n / 128 < n := Nat.div_lt_self (by omega) (by omega)
    rw [encodeVarintGo_irrel n (n / 128 + 1) (n / 128) (by omega) (by omega)]
    rfl

/-- Parse a base-128 varint from the front of a byte stream, returning the
value and the remaining bytes; `none` when the stream ends inside the
varint. -/
def parseVarint : List Nat → Option (Nat × List Nat)
  | [] => none
  | b :: rest =>
    if b < 128 then some (b, rest)
    else
      match parseVarint rest with
      | some (v, r) => some (b % 128 + 128 * v, r)
      | none => none

theorem encodeVarint_ne_nil (n : Nat) : encodeVarint n ≠ [] := by
  rw [encodeVarint_eq]
  split <;> simp

theorem parseVarint_encodeVarint (n : Nat) (rest : List Nat) :
    parseVarint (encodeVarint n ++ rest) = some (n, rest) := by
  induction n using Nat.strong_induction_on with
  | _ n ih =>
    rw [encodeVarint_eq]
    by_cases h : n < 128
    · rw [if_pos h]
      simp [parseVarint, h]
    · rw [if_neg h]
      have hge : ¬ (n % 128 + 128 < 128) := by omega
      have hdiv : n / 128 < n := Nat.div_lt_self (by omega) (by omega)
      simp only [List.cons_append, parseVarint, if_neg hge, List.append_eq,
        ih (n / 128) hdiv]
      have : (n % 128 + 128) % 128 = n % 128 := by omega
      rw [this]
      rw [Nat.mod_add_div n 128]

theorem parseVarint_length {data rest : List Nat} {v : Nat}
    (h : parseVarint data = some (v, rest)) : rest.length < data.length := by
  induction data generalizing v rest with
  | nil => simp [parseVarint] at h
  | cons b bs ih =>
    simp only [parseVarint] at h
    split at h
    · cases h
      simp
    · cases hrec : parseVarint bs with
      | none => rw [hrec] at h; cases h
      | some pr =>
        rw [hrec] at h
        cases pr with
        | mk v' r' =>
          cases h
          have := ih hrec
          simp
          omega

theorem encodeVarint_bytes_lt (n : Nat) : ∀ b ∈ encodeVarint n, b < 256 := by
  induction n using Nat.strong_induction_on with
  | _ n ih =>
    rw [encodeVarint_eq]
    by_cases h : n < 128
    · rw [if_pos h]
      intro b hb
      simp at hb
      omega
    · rw [if_neg h]
      intro b hb
      simp at hb
      rcases hb with hb | hb
      · omega
      · exact ih (n / 128) (Nat.div_lt_self (by omega) (by omega)) b hb

/-! ### Schema model

Field descriptors carry the protobuf field number, the proto field name
(the decoder marshals with `UseProtoNames: true`, so JSON keys are the
proto names), and the field kind.  The modelled kinds are `string`
(wire type 2) and `uint64` (wire type 0). -/

inductive FieldType where
  | string : FieldType
  | uint64 : FieldType
deriving DecidableEq, Repr

structure FieldDescr where
  num : Nat
  name : String
  typ : FieldType
deriving DecidableEq, Repr

/-- Message descriptor: fully-qualified dot-separated name (protobuf's
`msg.FullName()`), scalar fields, and nested message declarations. -/
inductive MessageDescriptor where
  | mk (fullName : String) (fields : List FieldDescr)
       (nested : List MessageDescriptor)

def MessageDescriptor.fullName : MessageDescriptor → String
  | .mk n _ _ => n

def MessageDescriptor.fields : MessageDescriptor → List FieldDescr
  | .mk _ fs _ => fs

def MessageDescriptor.nested : MessageDescriptor → List MessageDescriptor
  | .mk _ _ ns => ns

mutual

/-- All messages declared at or below `m` in the nesting tree, `m` first. -/
def descendants (m : MessageDescriptor) : List MessageDescriptor :=
  match m with
  | .mk n fs ns => .mk n fs ns :: descendantsList ns

def descendantsList : List MessageDescriptor → List MessageDescriptor
  | [] => []
  | m :: rest => descendants m ++ descendantsList rest

end

/-! ### Values, JSON objects and dynamic messages -/

/-- Field value, shared between the JSON side (canonical protojson value)
and the dynamic-message side.  Strings are byte lists (their UTF-8
bytes). -/
inductive Value where
  | vstr : List Nat → Value
  | vint : Nat → Value
deriving DecidableEq, Repr

/-- JSON object: ordered association list of key/value pairs. -/
abbrev JsonObj := List (String × Value)

/-- Dynamic message instance: field number to value.  A proto3 scalar field
holding its zero value is unpopulated. -/
abbrev Msg := List (Nat × Value)

def objLookup : JsonObj → String → Option Value
  | [], _ => none
  | (k, v) :: rest, k' => if k = k' then some v else objLookup rest k'

def msgLookup : Msg → Nat → Option Value
  | [], _ => none
  | (k, v) :: rest, k' => if k = k' then some v else msgLookup rest k'

def setField : Msg → Nat → Value → Msg
  | [], n, v => [(n, v)]
  | (k, w) :: rest, n, v =>
    if k = n then (n, v) :: rest else (k, w) :: setField rest n v

def isZero : Value → Bool
  | .vstr s => s.isEmpty
  | .vint n => n == 0

def typeMatches : FieldType → Value → Bool
  | .string, .vstr _ => true
  | .uint64, .vint _ => true
  | _, _ => false

def findByName : List FieldDescr → String → Option FieldDescr
  | [], _ => none
  | f :: rest, k => if f.name = k then some f else findByName rest k

def findByNum : List FieldDescr → Nat → Option FieldDescr
  | [], _ => none
  | f :: rest, n => if f.num = n then some f else findByNum rest n

/-! ### Type registry and descriptor-set loading

Mirrors `Decoder.messageTypes` (a Go map from fully-qualified name to
message type) as an association list with overwrite-on-insert, and
`loadDescriptorSet` / `loadMessages` / `loadMessage` from
`internal/decoder/decoder.go`. -/

abbrev Registry := List (String × MessageDescriptor)

/-- Go map assignment `d.messageTypes[fullName] = ...`: overwrite the
existing entry for the key, or append a new entry. -/
def insertType : Registry → String → MessageDescriptor → Registry
  | [], k, v => [(k, v)]
  | (k', v') :: rest, k, v =>
    if k' = k then (k, v) :: rest else (k', v') :: insertType rest k v

def lookupType : Registry → String → Option MessageDescriptor
  | [], _ => none
  | (k', v') :: rest, k => if k' = k then some v' else lookupType rest k

def containsKey (reg : Registry) (k : String) : Bool :=
  (lookupType reg k).isSome

mutual

/-- `Decoder.loadMessage`: register the message under its fully-qualified
name, then recurse into every nested message declaration. -/
def loadMessage (reg : Registry) (m : MessageDescriptor) : Registry :=
  match m with
  | .mk n fs ns => loadMessageList (insertType reg n (.mk n fs ns)) ns

def loadMessageList (reg : Registry) : List MessageDescriptor → Registry
  | [] => reg
  | m :: rest => loadMessageList (loadMessage reg m) rest

end

/-- File descriptor as seen by `loadDescriptorSet`.  `resolves` abstracts
the outcome of the external `protodesc.NewFile` resolution (with the
registry, then retried without it); per the spec's silent-skip policy a
file that resolves neither way is skipped, not fatal. -/
structure FileDescr where
  path : String
  resolves : Bool
  messages : List MessageDescriptor

/-- State of the `protoregistry.Files` registry alongside the decoder's
own name-to-type map: the registered file paths and the top-level message
full names registered so far (the conflict set `RegisterFile` checks new
files against; a nested-name conflict across files implies a conflict of
its top-level ancestor, names being prefix-qualified, so the top-level
set decides conflicts within the modelled fragment). -/
structure LoadState where
  reg : Registry
  paths : List String
  names : List String

/-- Full names of a file's top-level message declarations. -/
def topLevelNames (f : FileDescr) : List String :=
  f.messages.map MessageDescriptor.fullName

inductive LoadError where
  | noMessageTypesFound : LoadError
  | registerFileFailed : String → LoadError
deriving DecidableEq, Repr

/-- One iteration of the `for _, fdProto := range fdSet.File` loop in
`loadDescriptorSet`: skip unresolvable files.  When the file's path is
already registered, the `FindFileByPath` guard skips `RegisterFile` and
the file's messages are still loaded (overwriting same-name map
entries).  Otherwise `RegisterFile` runs: the external
`protoregistry.Files.RegisterFile` rejects a declaration whose full name
conflicts with one from a previously registered (distinct-path) file,
and `loadDescriptorSet` propagates that error fatally
("failed to register file ..."); on success the file's path and names
are recorded and its messages loaded. -/
def processFile (st : LoadState) (f : FileDescr) : Except LoadError LoadState :=
  if f.resolves then
    if st.paths.contains f.path then
      .ok { st with reg := loadMessageList st.reg f.messages }
    else if (topLevelNames f).any st.names.contains then
      .error (.registerFileFailed f.path)
    else
      .ok { reg := loadMessageList st.reg f.messages
            paths := f.path :: st.paths
            names := topLevelNames f ++ st.names }
  else .ok st

def processFiles (st : LoadState) : List FileDescr → Except LoadError LoadState
  | [] => .ok st
  | f :: rest =>
    match processFile st f with
    | .error e => .error e
    | .ok st' => processFiles st' rest

/-- `Decoder.loadDescriptorSet`, from the point where the descriptor set
has been unmarshalled into its file descriptors (the byte-level
`proto.Unmarshal` of the blob is external): process every file,
propagating a registration failure, then fail with `NoMessageTypesFound`
when the registry ended up empty. -/
def loadDescriptorSet (files : List FileDescr) : Except LoadError Registry :=
  match processFiles ⟨[], [], []⟩ files with
  | .error e => .error e
  | .ok st => if st.reg.isEmpty then .error .noMessageTypesFound else .ok st.reg

structure Decoder where
  messageTypes : Registry
  defaultType : String

/-- `NewDecoder`, from the point where the schema source has been turned
into parsed file descriptors: load them, propagating load errors, and
record the configured default message type. -/
def mkDecoder (files : List FileDescr) (messageType : String) :
    Except LoadError Decoder :=
  (loadDescriptorSet files).map fun reg =>
    { messageTypes := reg, defaultType := messageType }

def MessageTypeCount (d : Decoder) : Nat := d.messageTypes.length

def MessageTypes (d : Decoder) : List String := d.messageTypes.map Prod.fst

/-! ### Wire-format records -/

inductive Payload where
  | pvarint : Nat → Payload
  | pfixed64 : List Nat → Payload
  | pbytes : List Nat → Payload
  | pfixed32 : List Nat → Payload
deriving DecidableEq, Repr

structure WRecord where
  num : Nat
  payload : Payload
deriving DecidableEq, Repr

/-- Parse one wire-format record: a varint tag `fieldNumber << 3 | wireType`
followed by a payload per wire type (0 varint, 1 fixed64, 2 length-
delimited, 5 fixed32).  Field number 0, wire types 3/4/6/7, varints not
fitting in 64 bits, and truncated payloads are malformed. -/
def parseRecord (data : List Nat) : Option (WRecord × List Nat) :=
  match parseVarint data with
  | none => none
  | some (tag, rest) =>
    if tag < 2 ^ 64 ∧ tag / 8 ≠ 0 then
      match tag % 8 with
      | 0 =>
        match parseVarint rest with
        | some (v, r) =>
          if v < 2 ^ 64 then some (⟨tag / 8, .pvarint v⟩, r) else none
        | none => none
      | 1 =>
        if 8 ≤ rest.length then
          some (⟨tag / 8, .pfixed64 (rest.take 8)⟩, rest.drop 8)
        else none
      | 2 =>
        match parseVarint rest with
        | some (len, r) =>
          if len < 2 ^ 64 ∧ len ≤ r.length then
            some (⟨tag / 8, .pbytes (r.take len)⟩, r.drop len)
          else none
        | none => none
      | 5 =>
        if 4 ≤ rest.length then
          some (⟨tag / 8, .pfixed32 (rest.take 4)⟩, rest.drop 4)
        else none
      | _ => none
    else none

theorem parseRecord_length {data rest : List Nat} {r : WRecord}
    (h : parseRecord data = some (r, rest)) : rest.length < data.length := by
  unfold parseRecord at h
  cases htag : parseVarint data with
  | none => rw [htag] at h; cases h
  | some pr =>
    rw [htag] at h
    cases pr with
    | mk tag rest0 =>
      simp only at h
      have h0 : rest0.length < data.length := parseVarint_length htag
      by_cases hc : tag < 2 ^ 64 ∧ tag / 8 ≠ 0
      · rw [if_pos hc] at h
        split at h
        · cases hv : parseVarint rest0 with
          | none => rw [hv] at h; cases h
          | some pv =>
            rw [hv] at h
            cases pv with
            | mk v rr =>
              simp only at h
              by_cases hb : v < 2 ^ 64
              · rw [if_pos hb] at h
                cases h
                have h1 := parseVarint_length hv
                omega
              · rw [if_neg hb] at h; cases h
        · by_cases hb : 8 ≤ rest0.length
          · rw [if_pos hb] at h
            cases h
            simp only [List.length_drop]
            omega
          · rw [if_neg hb] at h; cases h
        · cases hv : parseVarint rest0 with
          | none => rw [hv] at h; cases h
          | some pv =>
            rw [hv] at h
            cases pv with
            | mk len rr =>
              simp only at h
              have h1 : rr.length < rest0.length := parseVarint_length hv
              by_cases hb : len < 2 ^ 64 ∧ len ≤ rr.length
              · rw [if_pos hb] at h
                cases h
                simp only [List.length_drop]
                omega
              · rw [if_neg hb] at h; cases h
        · by_cases hb : 4 ≤ rest0.length
          · rw [if_pos hb] at h
            cases h
            simp only [List.length_drop]
            omega
          · rw [if_neg hb] at h; cases h
        · cases h
      · rw [if_neg hc] at h; cases h

/-- Structural worker for `parseRecords`; the fuel only bounds the loop
count (each record consumes at least one byte) and is always supplied
large enough. -/
def parseRecordsGo : Nat → List Nat → Option (List WRecord)
  | 0, _ => none
  | fuel + 1, data =>
    if data = [] then some []
    else
      match parseRecord data with
      | none => none
      | some (r, rest) => (parseRecordsGo fuel rest).map (r :: ·)

/-- Parse a whole payload as a sequence of records (the loop inside
`proto.Unmarshal`); any structural error fails the whole parse. -/
def parseRecords (data : List Nat) : Option (List WRecord) :=
  parseRecordsGo (data.length + 1) data

theorem parseRecord_nil : parseRecord [] = none := rfl

theorem parseRecordsGo_irrel :
    ∀ f₁ f₂ data, data.length < f₁ → data.length < f₂ →
      parseRecordsGo f₁ data = parseRecordsGo f₂ data := by
  intro f₁
  induction f₁ with
  | zero => intro f₂ data h₁; omega
  | succ f ih =>
    intro f₂ data h₁ h₂
    cases f₂ with
    | zero => omega
    | succ f' =>
      simp only [parseRecordsGo]
      by_cases hd : data = []
      · rw [if_pos hd, if_pos hd]
      · rw [if_neg hd, if_neg hd]
        cases hr : parseRecord data with
        | none => rfl
        | some pr =>
          cases pr with
          | mk r rest =>
            have hlen := parseRecord_length hr
            simp only
            rw [ih f' rest (by omega) (by omega)]

theorem parseRecords_nil : parseRecords [] = some [] := rfl

/-- One-step unfolding of `parseRecords` on a successfully parsed record. -/
theorem parseRecords_cons {data rest : List Nat} {r : WRecord}
    (h : parseRecord data = some (r, rest)) :
    parseRecords data = (parseRecords rest).map (r :: ·) := by
  have hd : data ≠ [] := by
    intro he
    rw [he, parseRecord_nil] at h
    cases h
  show parseRecordsGo (data.length + 1) data = _
  simp only [parseRecordsGo, if_neg hd, h]
  have hlen := parseRecord_length h
  rw [parseRecordsGo_irrel data.length (rest.length + 1) rest (by omega) (by omega)]
  rfl

/-! ### Message marshalling (proto.Marshal / proto.Unmarshal on dynamic
messages) -/

def wireTypeOf : FieldType → Nat
  | .string => 2
  | .uint64 => 0

def payloadBytes : FieldType → Value → List Nat
  | .uint64, .vint n => encodeVarint n
  | .string, .vstr s => encodeVarint s.length ++ s
  | _, _ => []

/-- Serialize one populated field: varint tag `num*8 + wireType` followed
by the value encoding. -/
def encodeField (f : FieldDescr) (v : Value) : List Nat :=
  encodeVarint (f.num * 8 + wireTypeOf f.typ) ++ payloadBytes f.typ v

/-- `proto.Marshal` on a dynamic message: emit each populated field in
declaration order; a proto3 implicit-presence scalar at its zero value is
unpopulated and emits nothing. -/
def marshalMessage (fields : List FieldDescr) (m : Msg) : List Nat :=
  match fields with
  | [] => []
  | f :: rest =>
    (match msgLookup m f.num with
     | some v => if isZero v then [] else encodeField f v
     | none => []) ++ marshalMessage rest m

def valueOfPayload : Payload → Value
  | .pvarint n => .vint n
  | .pbytes s => .vstr s
  | .pfixed64 _ => .vint 0
  | .pfixed32 _ => .vint 0

/-- Apply one parsed record to the message being built: a record whose
field number matches a declared field with the matching wire shape sets
that field (later records overwrite earlier ones); anything else is
retained by the runtime as an unknown field, which the JSON serializer
never emits, so it is dropped here. -/
def applyRecord (fields : List FieldDescr) (m : Msg) (r : WRecord) : Msg :=
  match findByNum fields r.num with
  | none => m
  | some f =>
    match f.typ, r.payload with
    | .uint64, .pvarint n => setField m f.num (.vint n)
    | .string, .pbytes s => setField m f.num (.vstr s)
    | _, _ => m

def applyRecords (fields : List FieldDescr) (m : Msg) :
    List WRecord → Msg
  | [] => m
  | r :: rest => applyRecords fields (applyRecord fields m r) rest

/-- `proto.Unmarshal` into a fresh dynamic message: structural wire errors
fail the whole parse, otherwise the records populate the message. -/
def unmarshalMessage (fields : List FieldDescr) (data : List Nat) :
    Option Msg :=
  (parseRecords data).map (applyRecords fields [])

/-- `protojson.Marshal` with `UseProtoNames: true` and
`EmitUnpopulated: false`: emit every populated (non-zero) field under its
proto name, in declaration order.  Modelled at the JSON value level. -/
def messageToJson (fields : List FieldDescr) (m : Msg) : JsonObj :=
  match fields with
  | [] => []
  | f :: rest =>
    (match msgLookup m f.num with
     | some v => if isZero v then [] else [(f.name, v)]
     | none => []) ++ messageToJson rest m

/-- `protojson.Unmarshal` with `DiscardUnknown: false, AllowPartial: false`
(strict matching): every JSON key must name a declared field and carry a
value of the field's kind, otherwise the whole unmarshal fails. -/
def jsonToMessage (fields : List FieldDescr) : JsonObj → Option Msg
  | [] => some []
  | (k, v) :: rest =>
    match findByName fields k with
    | none => none
    | some f =>
      if typeMatches f.typ v then
        (jsonToMessage fields rest).map (fun ms => (f.num, v) :: ms)
      else none

/-! ### Decode / Encode entry points -/

inductive DecodeError where
  | messageTypeRequired : DecodeError
  | unknownMessageType : String → DecodeError
  | wireFormatError : DecodeError
deriving DecidableEq, Repr

/-- Result triple of `Decode`/`decodeWithType`
(`jsonBytes, typeName, err`), kept as a triple so that "no partial output
on failure" is a provable fact about the returned values rather than a
consequence of the encoding. -/
structure DecodeResult where
  json : Option JsonObj
  typeName : String
  err : Option DecodeError
deriving DecidableEq, Repr

/-- `Decoder.decodeWithType`: registry lookup, wire unmarshal, JSON
marshal.  Each failure returns `(nil, "", err)`.  The JSON marshal step
is total in the modelled fragment, so its error branch has no inhabitant
here. -/
def decodeWithType (d : Decoder) (data : List Nat) (typeName : String) :
    DecodeResult :=
  match lookupType d.messageTypes typeName with
  | none => ⟨none, "", some (.unknownMessageType typeName)⟩
  | some desc =>
    match unmarshalMessage desc.fields data with
    | none => ⟨none, "", some .wireFormatError⟩
    | some m => ⟨some (messageToJson desc.fields m), typeName, none⟩

/-- `Decoder.Decode`: require a configured message type, then decode with
the default type. -/
def Decode (d : Decoder) (data : List Nat) : DecodeResult :=
  if d.defaultType = "" then ⟨none, "", some .messageTypeRequired⟩
  else decodeWithType d data d.defaultType

inductive EncodeError where
  | unknownMessageType : String → EncodeError
  | jsonUnmarshalError : EncodeError
deriving DecidableEq, Repr

structure EncodeResult where
  bytes : Option (List Nat)
  err : Option EncodeError
deriving DecidableEq, Repr

/-- `encodeMessage` (cmd/produce.go and internal/kafka/producer.go):
registry lookup, strict JSON unmarshal into a fresh dynamic message,
wire marshal.  `proto.Marshal` is total on the modelled messages (proto3,
no required fields), so its error branch has no inhabitant here. -/
def encodeMessage (d : Decoder) (msgTypeName : String) (jsonData : JsonObj) :
    EncodeResult :=
  match lookupType d.messageTypes msgTypeName with
  | none => ⟨none, some (.unknownMessageType msgTypeName)⟩
  | some desc =>
    match jsonToMessage desc.fields jsonData with
    | none => ⟨none, some .jsonUnmarshalError⟩
    | some m => ⟨some (marshalMessage desc.fields m), none⟩

/-! ### Schema-source classification (`isDescriptorSetFile`) -/

/-- Go's `filepath.Ext`: the suffix of the path beginning at the final dot
in the final path element, empty when the final element has no dot.
Helper walking the reversed character list. -/
def extGo : List Char → List Char → String
  | [], _ => ""
  | c :: rest, acc =>
    if c = '/' then ""
    else if c = '.' then String.mk ('.' :: acc)
    else extGo rest (c :: acc)

def ext (path : String) : String := extGo path.toList.reverse []

/-- Schema source file as `isDescriptorSetFile` observes it.  The two
parse attempts of the file's raw bytes (`proto.Unmarshal` into a
`FileDescriptorSet`, then into a single `FileDescriptorProto`) are
external protobuf-runtime behaviour and are modelled from the spec as two
observations of the bytes.  They are independent in general: for the
bytes `[0x0A, 0x01, 0x00]` the set parse fails (field 1 of a set is a
message whose payload `0x00` has field number 0) while the single-file
parse succeeds (field 1 of a file descriptor is its name; proto2 strings
accept arbitrary bytes), and the empty file parses as both.  The file is
assumed readable — `NewDecoder` has already checked existence. -/
structure SchemaFile where
  path : String
  parsesAsSet : Bool
  parsesAsProto : Bool

/-- `Decoder.isDescriptorSetFile`: blob extensions are descriptor sets;
`.yaml`/`.yml` never are; any other extension is content-sniffed with
both parse attempts. -/
def isDescriptorSetFile (f : SchemaFile) : Bool :=
  let e := ext f.path
  if e = ".desc" || e = ".pb" || e = ".protoset" then true
  else if e = "" || (e ≠ ".yaml" && e ≠ ".yml") then
    f.parsesAsSet || f.parsesAsProto
  else false

/-- Classifier written from the claim's words: an ambiguous extension is a
blob if and only if the bytes parse as a serialized descriptor-set
message. -/
def claimIsDescriptorSet (f : SchemaFile) : Bool :=
  let e := ext f.path
  if e = ".desc" || e = ".pb" || e = ".protoset" then true
  else if e = ".yaml" || e = ".yml" then false
  else f.parsesAsSet

/-- Classifier for the amended claim: an ambiguous extension is a blob if
and only if the bytes parse as a serialized descriptor-set message or as
a single serialized file-descriptor message. -/
def claimIsDescriptorSetAmended (f : SchemaFile) : Bool :=
  let e := ext f.path
  if e = ".desc" || e = ".pb" || e = ".protoset" then true
  else if e = ".yaml" || e = ".yml" then false
  else f.parsesAsSet || f.parsesAsProto

/-! ### Validity predicates -/

/-- Protobuf field-descriptor well-formedness: field numbers are at least
1 and below 2^29. -/
def validField (f : FieldDescr) : Prop := 1 ≤ f.num ∧ f.num < 2 ^ 29

instance (f : FieldDescr) : Decidable (validField f) := by
  unfold validField
  infer_instance

/-- Well-formed message schema: valid fields with pairwise-distinct field
numbers and pairwise-distinct names, as protobuf guarantees for any
compiled descriptor. -/
def validSchema (fields : List FieldDescr) : Prop :=
  (∀ f ∈ fields, validField f) ∧
    (fields.map FieldDescr.num).Nodup ∧ (fields.map FieldDescr.name).Nodup

instance (fields : List FieldDescr) : Decidable (validSchema fields) := by
  unfold validSchema
  infer_instance

/-- Representable field value: string bytes are bytes and lengths and
integers fit in 64 bits. -/
def validValue : Value → Prop
  | .vstr s => s.length < 2 ^ 64 ∧ ∀ b ∈ s, b < 256
  | .vint n => n < 2 ^ 64

instance (v : Value) : Decidable (validValue v) := by
  cases v <;> simp only [validValue] <;> infer_instance

/-- JSON object valid for a schema: keys are distinct, and every entry
names a declared field and carries a representable value of that field's
kind. -/
def validJson (fields : List FieldDescr) (j : JsonObj) : Prop :=
  (j.map Prod.fst).Nodup ∧
    ∀ kv ∈ j, ∃ f ∈ fields,
      f.name = kv.1 ∧ typeMatches f.typ kv.2 = true ∧ validValue kv.2

instance (fields : List FieldDescr) (j : JsonObj) :
    Decidable (validJson fields j) := by
  unfold validJson
  infer_instance

/-- Canonicalization from the round-trip property: drop the entries whose
value is the field's zero value. -/
def canonicalize (j : JsonObj) : JsonObj :=
  j.filter (fun kv => !(isZero kv.2))

/-! ### Concrete schema from the spec's scenarios -/

/-- Scenario schema: `events.UserEvent{string user_id; string event_type;}`. -/
def userEventDesc : MessageDescriptor :=
  .mk "events.UserEvent"
    [⟨1, "user_id", .string⟩, ⟨2, "event_type", .string⟩] []

/-- Decoder state after loading the scenario schema with
`events.UserEvent` configured as the default type. -/
def sampleDecoder : Decoder :=
  { messageTypes := [("events.UserEvent", userEventDesc)]
    defaultType := "events.UserEvent" }

/-- Scenario input `{"user_id":"u1","event_type":"LOGIN"}` (string values
as their UTF-8 bytes). -/
def sampleJson : JsonObj :=
  [("user_id", .vstr [117, 49]), ("event_type", .vstr [76, 79, 71, 73, 78])]

/-! ### Round-trip development: wire level -/

/-- Payload a populated field of the given kind serializes to. -/
def payloadOf : FieldType → Value → Payload
  | .uint64, .vint n => .pvarint n
  | .string, .vstr s => .pbytes s
  | _, _ => .pvarint 0

/-- Wire shape a record's payload must have to populate a field of the
given kind. -/
def shapeOk : FieldType → Payload → Bool
  | .uint64, .pvarint _ => true
  | .string, .pbytes _ => true
  | _, _ => false

theorem valueOfPayload_payloadOf {t : FieldType} {v : Value}
    (h : typeMatches t v = true) : valueOfPayload (payloadOf t v) = v := by
  cases t <;> cases v <;> simp [typeMatches] at h ⊢ <;> rfl

theorem shapeOk_payloadOf {t : FieldType} {v : Value}
    (h : typeMatches t v = true) : shapeOk t (payloadOf t v) = true := by
  cases t <;> cases v <;> simp [typeMatches] at h ⊢ <;> rfl

theorem pow64_eq : (2 : Nat) ^ 64 = 18446744073709551616 := by norm_num

theorem pow29_eq : (2 : Nat) ^ 29 = 536870912 := by norm_num

/-- Parsing one encoded field recovers its record and leaves the rest of
the stream untouched. -/
theorem parseRecord_encodeField (f : FieldDescr) (v : Value) (tail : List Nat)
    (hf : validField f) (ht : typeMatches f.typ v = true)
    (hv : validValue v) :
    parseRecord (encodeField f v ++ tail) =
      some (⟨f.num, payloadOf f.typ v⟩, tail) := by
  obtain ⟨hf1, hf2⟩ := hf
  cases hft : f.typ with
  | uint64 =>
    cases v with
    | vstr s => rw [hft] at ht; simp [typeMatches] at ht
    | vint n =>
      have hn : n < 2 ^ 64 := hv
      unfold encodeField payloadBytes
      rw [hft]
      unfold wireTypeOf
      rw [List.append_assoc]
      unfold parseRecord
      rw [parseVarint_encodeVarint]
      simp only
      have htag : f.num * 8 + 0 < 2 ^ 64 ∧ (f.num * 8 + 0) / 8 ≠ 0 := by
        rw [pow64_eq]
        rw [pow29_eq] at hf2
        omega
      rw [if_pos htag]
      have hmod : (f.num * 8 + 0) % 8 = 0 := by omega
      rw [hmod]
      rw [parseVarint_encodeVarint]
      simp only [if_pos hn]
      have hdiv : (f.num * 8 + 0) / 8 = f.num := by omega
      rw [hdiv]
      rfl
  | string =>
    cases v with
    | vint n => rw [hft] at ht; simp [typeMatches] at ht
    | vstr s =>
      have hs : s.length < 2 ^ 64 := hv.1
      unfold encodeField payloadBytes
      rw [hft]
      unfold wireTypeOf
      rw [List.append_assoc, List.append_assoc]
      unfold parseRecord
      rw [parseVarint_encodeVarint]
      simp only
      have htag : f.num * 8 + 2 < 2 ^ 64 ∧ (f.num * 8 + 2) / 8 ≠ 0 := by
        rw [pow64_eq]
        rw [pow29_eq] at hf2
        omega
      rw [if_pos htag]
      have hmod : (f.num * 8 + 2) % 8 = 2 := by omega
      rw [hmod]
      rw [parseVarint_encodeVarint]
      simp only
      have hguard : s.length < 2 ^ 64 ∧ s.length ≤ (s ++ tail).length := by
        constructor
        · exact hs
        · simp
      rw [if_pos hguard]
      rw [List.take_left, List.drop_left]
      have hdiv : (f.num * 8 + 2) / 8 = f.num := by omega
      rw [hdiv]
      rfl

/-- Records produced by `marshalMessage`, in declaration order: one per
declared field that is populated with a non-zero value. -/
def recordsOf (fields : List FieldDescr) (m : Msg) : List WRecord :=
  match fields with
  | [] => []
  | f :: rest =>
    (match msgLookup m f.num with
     | some v => if isZero v then [] else [⟨f.num, payloadOf f.typ v⟩]
     | none => []) ++ recordsOf rest m

/-- Parsing a marshalled message recovers exactly its populated records. -/
theorem parseRecords_marshal (fields : List FieldDescr) (m : Msg)
    (hf : ∀ f ∈ fields, validField f)
    (hm : ∀ f ∈ fields, ∀ v, msgLookup m f.num = some v →
      typeMatches f.typ v = true ∧ validValue v) :
    parseRecords (marshalMessage fields m) = some (recordsOf fields m) := by
  induction fields with
  | nil => exact parseRecords_nil
  | cons f rest ih =>
    have ihr := ih (fun g hg => hf g (by simp [hg]))
      (fun g hg v hv => hm g (by simp [hg]) v hv)
    unfold marshalMessage recordsOf
    cases hlk : msgLookup m f.num with
    | none =>
      simp only [List.nil_append]
      exact ihr
    | some v =>
      simp only
      by_cases hz : isZero v = true
      · simp only [if_pos hz, List.nil_append]
        exact ihr
      · rw [if_neg hz, if_neg hz]
        have hfv := hm f (by simp) v hlk
        rw [parseRecords_cons
          (parseRecord_encodeField f v (marshalMessage rest m)
            (hf f (by simp)) hfv.1 hfv.2)]
        rw [ihr]
        rfl

/-! ### Round-trip development: message level -/

theorem msgLookup_setField_self (m : Msg) (n : Nat) (v : Value) :
    msgLookup (setField m n v) n = some v := by
  induction m with
  | nil => simp [setField, msgLookup]
  | cons kv rest ih =>
    cases kv with
    | mk k w =>
      by_cases h : k = n
      · simp [setField, if_pos h, msgLookup]
      · simp only [setField, if_neg h, msgLookup]
        exact ih

theorem msgLookup_setField_other (m : Msg) (n n' : Nat) (v : Value)
    (h : n ≠ n') : msgLookup (setField m n v) n' = msgLookup m n' := by
  induction m with
  | nil => simp [setField, msgLookup, if_neg h]
  | cons kv rest ih =>
    cases kv with
    | mk k w =>
      by_cases hk : k = n
      · simp only [setField, if_pos hk, msgLookup, if_neg h]
        rw [hk, if_neg h]
      · simp only [setField, if_neg hk, msgLookup]
        by_cases hk' : k = n'
        · rw [if_pos hk', if_pos hk']
        · rw [if_neg hk', if_neg hk']
          exact ih

/-- First record with the given field number. -/
def recLookup : List WRecord → Nat → Option Payload
  | [], _ => none
  | r :: rest, n => if r.num = n then some r.payload else recLookup rest n

theorem recLookup_eq_none {recs : List WRecord} {n : Nat}
    (h : n ∉ recs.map WRecord.num) : recLookup recs n = none := by
  induction recs with
  | nil => rfl
  | cons r rest ih =>
    simp only [List.map_cons, List.mem_cons] at h
    push_neg at h
    simp only [recLookup, if_neg (Ne.symm h.1)]
    exact ih h.2

theorem findByNum_some {fields : List FieldDescr} {n : Nat} {f : FieldDescr}
    (h : findByNum fields n = some f) : f ∈ fields ∧ f.num = n := by
  induction fields with
  | nil => cases h
  | cons g rest ih =>
    simp only [findByNum] at h
    by_cases hg : g.num = n
    · rw [if_pos hg] at h
      cases h
      exact ⟨by simp, hg⟩
    · rw [if_neg hg] at h
      have := ih h
      exact ⟨by simp [this.1], this.2⟩

/-- Applying a list of records with pairwise-distinct field numbers, each
matching a declared field with the right wire shape, makes the message's
lookups agree with the records. -/
theorem applyRecords_lookup (fields : List FieldDescr) :
    ∀ (recs : List WRecord) (m₀ : Msg),
      (recs.map WRecord.num).Nodup →
      (∀ r ∈ recs, ∃ f, findByNum fields r.num = some f ∧
        shapeOk f.typ r.payload = true) →
      ∀ n, msgLookup (applyRecords fields m₀ recs) n =
        match recLookup recs n with
        | some p => some (valueOfPayload p)
        | none => msgLookup m₀ n := by
  intro recs
  induction recs with
  | nil =>
    intro m₀ _ _ n
    rfl
  | cons r rest ih =>
    intro m₀ hnd hmatch n
    simp only [List.map_cons, List.nodup_cons] at hnd
    obtain ⟨f, hfind, hshape⟩ := hmatch r (by simp)
    obtain ⟨hfmem, hfnum⟩ := findByNum_some hfind
    have happ : applyRecord fields m₀ r = setField m₀ r.num (valueOfPayload r.payload) := by
      unfold applyRecord
      rw [hfind]
      cases hty : f.typ <;> cases hp : r.payload <;>
        simp [hty, hp, shapeOk] at hshape ⊢ <;>
        rw [hfnum] <;> rfl
    have ihr := ih (applyRecord fields m₀ r) hnd.2
      (fun r' hr' => hmatch r' (by simp [hr'])) n
    unfold applyRecords
    rw [ihr]
    by_cases hn : r.num = n
    · have hnot : n ∉ rest.map WRecord.num := by
        rw [← hn]
        exact hnd.1
      rw [recLookup_eq_none hnot]
      simp only [recLookup, if_pos hn]
      rw [happ, hn]
      exact msgLookup_setField_self m₀ n (valueOfPayload r.payload)
    · simp only [recLookup, if_neg hn]
      cases hc : recLookup rest n with
      | some p => rfl
      | none =>
        simp only
        rw [happ]
        exact msgLookup_setField_other m₀ r.num n (valueOfPayload r.payload) hn

theorem findByNum_of_mem_nodup {fields : List FieldDescr} {f : FieldDescr}
    (hnd : (fields.map FieldDescr.num).Nodup) (hf : f ∈ fields) :
    findByNum fields f.num = some f := by
  induction fields with
  | nil => cases hf
  | cons g rest ih =>
    simp only [List.map_cons, List.nodup_cons] at hnd
    rcases List.mem_cons.mp hf with he | hm
    · subst he
      simp [findByNum]
    · have hne : g.num ≠ f.num := by
        intro he
        exact hnd.1 (he ▸ List.mem_map_of_mem FieldDescr.num hm)
      simp only [findByNum, if_neg hne]
      exact ih hnd.2 hm

theorem mem_of_num_eq {fields : List FieldDescr} {f g : FieldDescr}
    (hnd : (fields.map FieldDescr.num).Nodup)
    (hf : f ∈ fields) (hg : g ∈ fields) (h : f.num = g.num) : f = g := by
  have h1 := findByNum_of_mem_nodup hnd hf
  have h2 := findByNum_of_mem_nodup hnd hg
  rw [h] at h1
  rw [h1] at h2
  cases h2
  rfl

theorem mem_of_name_eq {fields : List FieldDescr} {f g : FieldDescr}
    (hnd : (fields.map FieldDescr.name).Nodup)
    (hf : f ∈ fields) (hg : g ∈ fields) (h : f.name = g.name) : f = g := by
  induction fields with
  | nil => cases hf
  | cons x rest ih =>
    simp only [List.map_cons, List.nodup_cons] at hnd
    rcases List.mem_cons.mp hf with he₁ | hm₁ <;>
      rcases List.mem_cons.mp hg with he₂ | hm₂
    · rw [he₁, he₂]
    · subst he₁
      exact absurd (by
        rw [h]
        exact List.mem_map_of_mem FieldDescr.name hm₂) hnd.1
    · subst he₂
      exact absurd (by
        rw [← h]
        exact List.mem_map_of_mem FieldDescr.name hm₁) hnd.1
    · exact ih hnd.2 hm₁ hm₂

theorem recordsOf_num_sub (fields : List FieldDescr) (m : Msg) {n : Nat}
    (h : n ∈ (recordsOf fields m).map WRecord.num) :
    n ∈ fields.map FieldDescr.num := by
  induction fields with
  | nil => cases h
  | cons f rest ih =>
    unfold recordsOf at h
    simp only [List.map_cons, List.mem_cons]
    cases hlk : msgLookup m f.num with
    | none =>
      rw [hlk] at h
      simp only [List.nil_append] at h
      exact Or.inr (ih h)
    | some v =>
      rw [hlk] at h
      simp only at h
      by_cases hz : isZero v = true
      · rw [if_pos hz] at h
        simp only [List.nil_append] at h
        exact Or.inr (ih h)
      · rw [if_neg hz] at h
        simp only [List.cons_append, List.nil_append, List.map_cons,
          List.mem_cons] at h
        rcases h with he | hm
        · exact Or.inl he
        · exact Or.inr (ih hm)

theorem recLookup_recordsOf_mem {fields : List FieldDescr} {f : FieldDescr}
    (m : Msg) (hnd : (fields.map FieldDescr.num).Nodup) (hf : f ∈ fields) :
    recLookup (recordsOf fields m) f.num =
      match msgLookup m f.num with
      | some v => if isZero v then none else some (payloadOf f.typ v)
      | none => none := by
  induction fields with
  | nil => cases hf
  | cons g rest ih =>
    simp only [List.map_cons, List.nodup_cons] at hnd
    rcases List.mem_cons.mp hf with he | hm
    · subst he
      unfold recordsOf
      cases hlk : msgLookup m f.num with
      | none =>
        simp only [List.nil_append]
        exact recLookup_eq_none (by
          intro hc
          exact hnd.1 (recordsOf_num_sub rest m hc))
      | some v =>
        by_cases hz : isZero v = true
        · simp only [if_pos hz, List.nil_append]
          exact recLookup_eq_none (by
            intro hc
            exact hnd.1 (recordsOf_num_sub rest m hc))
        · simp only [if_neg hz, List.cons_append, List.nil_append, recLookup,
            if_pos rfl]
          simp
    · have hne : g.num ≠ f.num := by
        intro he
        exact hnd.1 (he ▸ List.mem_map_of_mem FieldDescr.num hm)
      unfold recordsOf
      cases hlk : msgLookup m g.num with
      | none =>
        simp only [List.nil_append]
        exact ih hnd.2 hm
      | some v =>
        by_cases hz : isZero v = true
        · simp only [if_pos hz, List.nil_append]
          exact ih hnd.2 hm
        · simp only [if_neg hz, List.cons_append, List.nil_append, recLookup,
            if_neg hne]
          exact ih hnd.2 hm

theorem recordsOf_matches (fields : List FieldDescr) (m : Msg)
    (hnd : (fields.map FieldDescr.num).Nodup)
    (hm : ∀ f ∈ fields, ∀ v, msgLookup m f.num = some v →
      typeMatches f.typ v = true) :
    ∀ r ∈ recordsOf fields m, ∃ f, findByNum fields r.num = some f ∧
      shapeOk f.typ r.payload = true := by
  have main : ∀ sub : List FieldDescr, (∀ f ∈ sub, f ∈ fields) →
      ∀ r ∈ recordsOf sub m, ∃ f ∈ fields, f.num = r.num ∧
        shapeOk f.typ r.payload = true := by
    intro sub
    induction sub with
    | nil => intro _ r hr; cases hr
    | cons g rest ih =>
      intro hsub r hr
      unfold recordsOf at hr
      cases hlk : msgLookup m g.num with
      | none =>
        rw [hlk] at hr
        simp only [List.nil_append] at hr
        exact ih (fun f hf => hsub f (by simp [hf])) r hr
      | some v =>
        rw [hlk] at hr
        simp only at hr
        by_cases hz : isZero v = true
        · rw [if_pos hz] at hr
          simp only [List.nil_append] at hr
          exact ih (fun f hf => hsub f (by simp [hf])) r hr
        · rw [if_neg hz] at hr
          simp only [List.cons_append, List.nil_append, List.mem_cons] at hr
          rcases hr with he | hm'
          · refine ⟨g, hsub g (by simp), ?_, ?_⟩
            · rw [he]
            · rw [he]
              exact shapeOk_payloadOf (hm g (hsub g (by simp)) v hlk)
          · exact ih (fun f hf => hsub f (by simp [hf])) r hm'
  intro r hr
  obtain ⟨f, hfmem, hfnum, hfshape⟩ := main fields (fun f hf => hf) r hr
  refine ⟨f, ?_, hfshape⟩
  rw [← hfnum]
  exact findByNum_of_mem_nodup hnd hfmem

theorem recordsOf_nodup (fields : List FieldDescr) (m : Msg)
    (hnd : (fields.map FieldDescr.num).Nodup) :
    ((recordsOf fields m).map WRecord.num).Nodup := by
  induction fields with
  | nil => simp [recordsOf]
  | cons f rest ih =>
    simp only [List.map_cons, List.nodup_cons] at hnd
    unfold recordsOf
    cases hlk : msgLookup m f.num with
    | none =>
      simp only [List.nil_append]
      exact ih hnd.2
    | some v =>
      simp only
      by_cases hz : isZero v = true
      · rw [if_pos hz]
        simp only [List.nil_append]
        exact ih hnd.2
      · rw [if_neg hz]
        simp only [List.cons_append, List.nil_append, List.map_cons,
          List.nodup_cons]
        refine ⟨?_, ih hnd.2⟩
        intro hc
        exact hnd.1 (recordsOf_num_sub rest m hc)

/-! ### Round-trip development: JSON level -/

theorem objLookup_mem {j : JsonObj} {k : String} {v : Value}
    (h : objLookup j k = some v) : (k, v) ∈ j := by
  induction j with
  | nil => cases h
  | cons kv rest ih =>
    cases kv with
    | mk k' v' =>
      simp only [objLookup] at h
      by_cases hk : k' = k
      · rw [if_pos hk] at h
        cases h
        rw [hk]
        simp
      · rw [if_neg hk] at h
        simp [ih h]

theorem objLookup_eq_none {j : JsonObj} {k : String}
    (h : ∀ kv ∈ j, kv.1 ≠ k) : objLookup j k = none := by
  induction j with
  | nil => rfl
  | cons kv rest ih =>
    cases kv with
    | mk k' v' =>
      simp only [objLookup, if_neg (h (k', v') (by simp))]
      exact ih (fun kv hkv => h kv (by simp [hkv]))

theorem findByName_some {fields : List FieldDescr} {k : String}
    {f : FieldDescr} (h : findByName fields k = some f) :
    f ∈ fields ∧ f.name = k := by
  induction fields with
  | nil => cases h
  | cons g rest ih =>
    simp only [findByName] at h
    by_cases hg : g.name = k
    · rw [if_pos hg] at h
      cases h
      exact ⟨by simp, hg⟩
    · rw [if_neg hg] at h
      have := ih h
      exact ⟨by simp [this.1], this.2⟩

theorem findByName_isSome {fields : List FieldDescr} {k : String}
    {f : FieldDescr} (hf : f ∈ fields) (hk : f.name = k) :
    ∃ g, findByName fields k = some g ∧ g ∈ fields ∧ g.name = k := by
  induction fields with
  | nil => cases hf
  | cons g rest ih =>
    by_cases hg : g.name = k
    · exact ⟨g, by simp [findByName, if_pos hg], by simp, hg⟩
    · rcases List.mem_cons.mp hf with he | hm
      · subst he
        exact absurd hk hg
      · obtain ⟨g', hfind, hmem, hname⟩ := ih hm
        exact ⟨g', by simp [findByName, if_neg hg, hfind], by simp [hmem], hname⟩

/-- Strict JSON unmarshal succeeds on any object valid for the schema. -/
theorem jsonToMessage_total {fields : List FieldDescr} {j : JsonObj}
    (hj : ∀ kv ∈ j, ∃ f ∈ fields,
      f.name = kv.1 ∧ typeMatches f.typ kv.2 = true)
    (hnm : (fields.map FieldDescr.name).Nodup) :
    ∃ m, jsonToMessage fields j = some m := by
  induction j with
  | nil => exact ⟨[], rfl⟩
  | cons kv rest ih =>
    cases kv with
    | mk k v =>
      obtain ⟨f, hfmem, hfname, hfty⟩ := hj (k, v) (by simp)
      obtain ⟨g, hfind, hgmem, hgname⟩ := findByName_isSome hfmem hfname
      have hfg : f = g := mem_of_name_eq hnm hfmem hgmem (by rw [hfname, hgname])
      obtain ⟨m', hm'⟩ := ih (fun kv hkv => hj kv (by simp [hkv]))
      refine ⟨(g.num, v) :: m', ?_⟩
      simp only [jsonToMessage, hfind]
      rw [if_pos (by rw [← hfg]; exact hfty), hm']
      rfl

/-- Pointwise relation between a strictly unmarshalled message and its
source JSON object: a declared field is populated exactly with the value
the JSON gives it. -/
theorem jsonToMessage_lookup {fields : List FieldDescr} {j : JsonObj} {m : Msg}
    (hm : jsonToMessage fields j = some m)
    (hnum : (fields.map FieldDescr.num).Nodup)
    (hnm : (fields.map FieldDescr.name).Nodup) :
    ∀ f ∈ fields, msgLookup m f.num = objLookup j f.name := by
  induction j generalizing m with
  | nil =>
    cases hm
    intro f _
    rfl
  | cons kv rest ih =>
    cases kv with
    | mk k v =>
      simp only [jsonToMessage] at hm
      cases hfind : findByName fields k with
      | none => rw [hfind] at hm; cases hm
      | some g =>
        rw [hfind] at hm
        simp only at hm
        by_cases hty : typeMatches g.typ v = true
        · rw [if_pos hty] at hm
          cases hrest : jsonToMessage fields rest with
          | none => rw [hrest] at hm; cases hm
          | some m' =>
            rw [hrest] at hm
            simp only [Option.map_some'] at hm
            cases hm
            obtain ⟨hgmem, hgname⟩ := findByName_some hfind
            intro f hf
            by_cases heq : f = g
            · subst heq
              simp [msgLookup, objLookup, hgname]
            · have hnnum : g.num ≠ f.num := by
                intro he
                exact heq (mem_of_num_eq hnum hf hgmem he.symm)
              have hnname : k ≠ f.name := by
                intro he
                exact heq (mem_of_name_eq hnm hf hgmem (by rw [← he, hgname]))
              simp only [msgLookup, objLookup, if_neg hnnum, if_neg hnname]
              exact ih hrest f hf
        · rw [if_neg hty] at hm
          cases hm

/-! ### Round-trip development: output JSON lookups -/

theorem messageToJson_name_sub (fields : List FieldDescr) (m' : Msg)
    {k : String} (h : k ∈ (messageToJson fields m').map Prod.fst) :
    k ∈ fields.map FieldDescr.name := by
  induction fields with
  | nil => cases h
  | cons f rest ih =>
    unfold messageToJson at h
    simp only [List.map_cons, List.mem_cons]
    cases hlk : msgLookup m' f.num with
    | none =>
      rw [hlk] at h
      simp only [List.nil_append] at h
      exact Or.inr (ih h)
    | some v =>
      rw [hlk] at h
      simp only at h
      by_cases hz : isZero v = true
      · rw [if_pos hz] at h
        simp only [List.nil_append] at h
        exact Or.inr (ih h)
      · rw [if_neg hz] at h
        simp only [List.cons_append, List.nil_append, List.map_cons,
          List.mem_cons] at h
        rcases h with he | hm
        · exact Or.inl he
        · exact Or.inr (ih hm)

theorem messageToJson_lookup_mem {fields : List FieldDescr} {f : FieldDescr}
    (m' : Msg) (hnm : (fields.map FieldDescr.name).Nodup) (hf : f ∈ fields) :
    objLookup (messageToJson fields m') f.name =
      match msgLookup m' f.num with
      | some v => if isZero v then none else some v
      | none => none := by
  induction fields with
  | nil => cases hf
  | cons g rest ih =>
    simp only [List.map_cons, List.nodup_cons] at hnm
    rcases List.mem_cons.mp hf with he | hm
    · subst he
      unfold messageToJson
      cases hlk : msgLookup m' f.num with
      | none =>
        simp only [List.nil_append]
        exact objLookup_eq_none (fun kv hkv => by
          intro he
          exact hnm.1 (he ▸ messageToJson_name_sub rest m' (by
            exact List.mem_map_of_mem Prod.fst hkv)))
      | some v =>
        simp only
        by_cases hz : isZero v = true
        · rw [if_pos hz, if_pos hz]
          simp only [List.nil_append]
          exact objLookup_eq_none (fun kv hkv => by
            intro he
            exact hnm.1 (he ▸ messageToJson_name_sub rest m' (by
              exact List.mem_map_of_mem Prod.fst hkv)))
        · rw [if_neg hz, if_neg hz]
          simp [objLookup]
    · have hne : g.name ≠ f.name := by
        intro he
        exact hnm.1 (he ▸ List.mem_map_of_mem FieldDescr.name hm)
      unfold messageToJson
      cases hlk : msgLookup m' g.num with
      | none =>
        simp only [List.nil_append]
        exact ih hnm.2 hm
      | some v =>
        simp only
        by_cases hz : isZero v = true
        · rw [if_pos hz]
          simp only [List.nil_append]
          exact ih hnm.2 hm
        · rw [if_neg hz]
          simp only [List.cons_append, List.nil_append, objLookup,
            if_neg hne]
          exact ih hnm.2 hm

theorem messageToJson_lookup_notmem {fields : List FieldDescr} {k : String}
    (m' : Msg) (hk : ∀ f ∈ fields, f.name ≠ k) :
    objLookup (messageToJson fields m') k = none := by
  apply objLookup_eq_none
  intro kv hkv he
  have hmem : k ∈ fields.map FieldDescr.name := by
    rw [← he]
    exact messageToJson_name_sub fields m' (List.mem_map_of_mem Prod.fst hkv)
  obtain ⟨f, hf, hfn⟩ := List.mem_map.mp hmem
  exact hk f hf hfn

theorem messageToJson_keys_nodup (fields : List FieldDescr) (m' : Msg)
    (hnm : (fields.map FieldDescr.name).Nodup) :
    ((messageToJson fields m').map Prod.fst).Nodup := by
  induction fields with
  | nil => simp [messageToJson]
  | cons f rest ih =>
    simp only [List.map_cons, List.nodup_cons] at hnm
    unfold messageToJson
    cases hlk : msgLookup m' f.num with
    | none =>
      simp only [List.nil_append]
      exact ih hnm.2
    | some v =>
      simp only
      by_cases hz : isZero v = true
      · rw [if_pos hz]
        simp only [List.nil_append]
        exact ih hnm.2
      · rw [if_neg hz]
        simp only [List.cons_append, List.nil_append, List.map_cons,
          List.nodup_cons]
        refine ⟨?_, ih hnm.2⟩
        intro hc
        exact hnm.1 (messageToJson_name_sub rest m' hc)

theorem objLookup_canonicalize {j : JsonObj} {k : String}
    (hnd : (j.map Prod.fst).Nodup) :
    objLookup (canonicalize j) k =
      match objLookup j k with
      | some v => if isZero v then none else some v
      | none => none := by
  induction j with
  | nil => rfl
  | cons kv rest ih =>
    cases kv with
    | mk k' v' =>
      simp only [List.map_cons, List.nodup_cons] at hnd
      unfold canonicalize at ih ⊢
      by_cases hk : k' = k
      · subst hk
        by_cases hz : isZero v' = true
        · rw [List.filter_cons_of_neg (by simp [hz])]
          simp only [objLookup, if_pos rfl, if_pos hz]
          have hnone : objLookup rest k' = none :=
            objLookup_eq_none (fun kv hkv he =>
              hnd.1 (he ▸ List.mem_map_of_mem Prod.fst hkv))
          rw [ih hnd.2, hnone]
          simp [hz]
        · rw [List.filter_cons_of_pos (by simp [hz])]
          simp only [objLookup, if_pos rfl, if_neg hz]
          simp [hz]
      · by_cases hz : isZero v' = true
        · rw [List.filter_cons_of_neg (by simp [hz])]
          simp only [objLookup, if_neg hk]
          exact ih hnd.2
        · rw [List.filter_cons_of_pos (by simp [hz])]
          simp only [objLookup, if_neg hk]
          exact ih hnd.2

/-- C1: for every message type name `T` registered in the decoder's
registry and every JSON object `j` valid for `T`'s schema, encoding `j`
with the encoder and decoding the resulting wire bytes with
`decodeWithType` succeeds and yields a JSON object equal to `j` up to
default-value omission: its lookups agree with `canonicalize j` (fields
absent from `j` or at their zero value are omitted), and its keys are
duplicate-free, so no extra fields appear. -/
theorem decode_encode_roundtrip
    (d : Decoder) (T : String) (desc : MessageDescriptor) (j : JsonObj)
    (hT : lookupType d.messageTypes T = some desc)
    (hs : validSchema desc.fields)
    (hj : validJson desc.fields j) :
    ∃ bs : List Nat,
      encodeMessage d T j = ⟨some bs, none⟩ ∧
      ∃ out : JsonObj,
        decodeWithType d bs T = ⟨some out, T, none⟩ ∧
        (out.map Prod.fst).Nodup ∧
        ∀ k, objLookup out k = objLookup (canonicalize j) k := by
  obtain ⟨hfv, hnum, hnm⟩ := hs
  obtain ⟨hjk, hjv⟩ := hj
  obtain ⟨m, hm⟩ := jsonToMessage_total
    (fun kv hkv => by
      obtain ⟨f, hf, h1, h2, _⟩ := hjv kv hkv
      exact ⟨f, hf, h1, h2⟩) hnm
  have hmv : ∀ f ∈ desc.fields, ∀ v, msgLookup m f.num = some v →
      typeMatches f.typ v = true ∧ validValue v := by
    intro f hf v hv
    have hrel := jsonToMessage_lookup hm hnum hnm f hf
    rw [hv] at hrel
    have hmem := objLookup_mem hrel.symm
    obtain ⟨f', hf', hname, hty, hval⟩ := hjv (f.name, v) hmem
    have hname' : f'.name = f.name := hname
    have heq : f' = f := mem_of_name_eq hnm hf' hf hname'
    subst heq
    exact ⟨hty, hval⟩
  have henc : encodeMessage d T j =
      ⟨some (marshalMessage desc.fields m), none⟩ := by
    unfold encodeMessage
    rw [hT]
    simp only
    rw [hm]
  refine ⟨marshalMessage desc.fields m, henc, ?_⟩
  have hparse : parseRecords (marshalMessage desc.fields m) =
      some (recordsOf desc.fields m) :=
    parseRecords_marshal desc.fields m hfv hmv
  have hunm : unmarshalMessage desc.fields (marshalMessage desc.fields m) =
      some (applyRecords desc.fields [] (recordsOf desc.fields m)) := by
    unfold unmarshalMessage
    rw [hparse]
    rfl
  have hdec : decodeWithType d (marshalMessage desc.fields m) T =
      ⟨some (messageToJson desc.fields
        (applyRecords desc.fields [] (recordsOf desc.fields m))), T, none⟩ := by
    unfold decodeWithType
    rw [hT]
    simp only
    rw [hunm]
  refine ⟨_, hdec,
    messageToJson_keys_nodup _ _ hnm, ?_⟩
  have happly := applyRecords_lookup desc.fields (recordsOf desc.fields m) []
    (recordsOf_nodup desc.fields m hnum)
    (recordsOf_matches desc.fields m hnum (fun f hf v hv => (hmv f hf v hv).1))
  have hm'lookup : ∀ f ∈ desc.fields,
      msgLookup (applyRecords desc.fields [] (recordsOf desc.fields m)) f.num =
        match msgLookup m f.num with
        | some v => if isZero v then none else some v
        | none => none := by
    intro f hf
    rw [happly f.num]
    rw [recLookup_recordsOf_mem m hnum hf]
    cases hv : msgLookup m f.num with
    | none => rfl
    | some v =>
      by_cases hz : isZero v = true
      · simp only [if_pos hz]
        rfl
      · simp only [if_neg hz]
        show some (valueOfPayload (payloadOf f.typ v)) = some v
        rw [valueOfPayload_payloadOf (hmv f hf v hv).1]
  intro k
  by_cases hk : ∃ f ∈ desc.fields, f.name = k
  · obtain ⟨f, hf, hfk⟩ := hk
    subst hfk
    rw [messageToJson_lookup_mem _ hnm hf]
    rw [objLookup_canonicalize hjk]
    rw [hm'lookup f hf]
    rw [← jsonToMessage_lookup hm hnum hnm f hf]
    cases hv : msgLookup m f.num with
    | none => rfl
    | some v =>
      by_cases hz : isZero v = true
      · simp [hz]
      · simp [hz]
  · push_neg at hk
    rw [messageToJson_lookup_notmem _ hk]
    rw [objLookup_canonicalize hjk]
    have hnone : objLookup j k = none := by
      cases hv : objLookup j k with
      | none => rfl
      | some v =>
        have hmem := objLookup_mem hv
        obtain ⟨f, hf, hname, _, _⟩ := hjv (k, v) hmem
        exact absurd hname (hk f hf)
    rw [hnone]

/-! ### Registry lemmas -/

theorem lookupType_insertType_self (reg : Registry) (k : String)
    (v : MessageDescriptor) : lookupType (insertType reg k v) k = some v := by
  induction reg with
  | nil => simp [insertType, lookupType]
  | cons kv rest ih =>
    cases kv with
    | mk k' v' =>
      by_cases h : k' = k
      · simp [insertType, if_pos h, lookupType]
      · simp only [insertType, if_neg h, lookupType]
        exact ih

theorem lookupType_insertType_other (reg : Registry) {k k' : String}
    (v : MessageDescriptor) (h : k ≠ k') :
    lookupType (insertType reg k v) k' = lookupType reg k' := by
  induction reg with
  | nil => simp [insertType, lookupType, if_neg h]
  | cons kv rest ih =>
    cases kv with
    | mk k₀ v₀ =>
      by_cases hk : k₀ = k
      · simp only [insertType, if_pos hk, lookupType, if_neg h]
        rw [hk, if_neg h]
      · simp only [insertType, if_neg hk, lookupType]
        by_cases hk' : k₀ = k'
        · rw [if_pos hk', if_pos hk']
        · rw [if_neg hk', if_neg hk']
          exact ih

theorem containsKey_insertType_self (reg : Registry) (k : String)
    (v : MessageDescriptor) : containsKey (insertType reg k v) k = true := by
  unfold containsKey
  rw [lookupType_insertType_self]
  rfl

theorem containsKey_insertType_mono (reg : Registry) {k' : String}
    (k : String) (v : MessageDescriptor)
    (h : containsKey reg k' = true) :
    containsKey (insertType reg k v) k' = true := by
  by_cases he : k = k'
  · subst he
    exact containsKey_insertType_self reg k v
  · unfold containsKey at h ⊢
    rw [lookupType_insertType_other reg v he]
    exact h

/-- Combined monotonicity and completeness of the recursive message
indexing, by strong induction on the total size of the worklist. -/
theorem loadMessageList_aux :
    ∀ n : Nat, ∀ ms : List MessageDescriptor, sizeOf ms < n →
      ∀ reg : Registry,
        (∀ k, containsKey reg k = true →
          containsKey (loadMessageList reg ms) k = true) ∧
        (∀ dm ∈ descendantsList ms,
          containsKey (loadMessageList reg ms) dm.fullName = true) := by
  intro n
  induction n with
  | zero => intro ms h; omega
  | succ n ih =>
    intro ms hms reg
    cases ms with
    | nil =>
      exact ⟨fun k hk => hk, fun dm hdm => by cases hdm⟩
    | cons m rest =>
      cases m with
      | mk nm fl ns =>
        have hns : sizeOf ns < n := by
          simp only [List.cons.sizeOf_spec, MessageDescriptor.mk.sizeOf_spec]
            at hms
          omega
        have hrest : sizeOf rest < n := by
          simp only [List.cons.sizeOf_spec, MessageDescriptor.mk.sizeOf_spec]
            at hms
          omega
        have hstep : loadMessageList reg (MessageDescriptor.mk nm fl ns :: rest) =
            loadMessageList
              (loadMessageList (insertType reg nm (.mk nm fl ns)) ns) rest := rfl
        rw [hstep]
        constructor
        · intro k hk
          exact (ih rest hrest _).1 k
            ((ih ns hns _).1 k (containsKey_insertType_mono reg nm _ hk))
        · intro dm hdm
          have hdesc :
              descendantsList (MessageDescriptor.mk nm fl ns :: rest) =
                (MessageDescriptor.mk nm fl ns :: descendantsList ns) ++
                  descendantsList rest := rfl
          rw [hdesc] at hdm
          rcases List.mem_append.mp hdm with hin | hin
          · rcases List.mem_cons.mp hin with he | hin'
            · subst he
              exact (ih rest hrest _).1 _
                ((ih ns hns _).1 _
                  (containsKey_insertType_self reg nm (.mk nm fl ns)))
            · exact (ih rest hrest _).1 _ ((ih ns hns _).2 dm hin')
          · exact (ih rest hrest _).2 dm hin

/-- C4: `loadMessage` registers a message descriptor under its
fully-qualified dot-separated name and recurses unconditionally into
every nested message, to unlimited depth: every descendant of the indexed
message (itself included) is afterwards lookup-able in the registry under
its own fully-qualified name. -/
theorem loadMessage_registers_descendants
    (reg : Registry) (m dm : MessageDescriptor)
    (h : dm ∈ descendants m) :
    containsKey (loadMessage reg m) dm.fullName = true := by
  have haux := (loadMessageList_aux (sizeOf [m] + 1) [m]
    (Nat.lt_succ_self _) reg).2 dm
  have hlist : loadMessageList reg [m] = loadMessage reg m := rfl
  have hdesc : descendantsList [m] = descendants m := by
    show descendants m ++ descendantsList [] = descendants m
    simp [descendantsList]
  rw [hlist, hdesc] at haux
  exact haux h

/-- Witness for C4 at the spec's nested-indexing scenario: `pkg.Outer`
with nested `pkg.Outer.Inner`; both names become lookup-able. -/
theorem loadMessage_registers_descendants_witness :
    (MessageDescriptor.mk "pkg.Outer.Inner" [] [] ∈
        descendants (.mk "pkg.Outer" [] [.mk "pkg.Outer.Inner" [] []]) ∧
      containsKey
        (loadMessage [] (.mk "pkg.Outer" [] [.mk "pkg.Outer.Inner" [] []]))
        "pkg.Outer.Inner" = true) ∧
    containsKey
      (loadMessage [] (.mk "pkg.Outer" [] [.mk "pkg.Outer.Inner" [] []]))
      "pkg.Outer" = true := by
  refine ⟨⟨by simp [descendants, descendantsList], ?_⟩, ?_⟩
  · exact loadMessage_registers_descendants []
      (.mk "pkg.Outer" [] [.mk "pkg.Outer.Inner" [] []])
      (.mk "pkg.Outer.Inner" [] [])
      (by simp [descendants, descendantsList])
  · exact loadMessage_registers_descendants []
      (.mk "pkg.Outer" [] [.mk "pkg.Outer.Inner" [] []])
      (.mk "pkg.Outer" [] [.mk "pkg.Outer.Inner" [] []])
      (by simp [descendants, descendantsList])

/-! ### Descriptor-set loading claims -/

theorem processFiles_reg_of_no_messages :
    ∀ (files : List FileDescr) (st : LoadState),
      (∀ f ∈ files, f.messages = []) →
      ∃ st', processFiles st files = .ok st' ∧ st'.reg = st.reg := by
  intro files
  induction files with
  | nil => intro st _; exact ⟨st, rfl, rfl⟩
  | cons f rest ih =>
    intro st h
    have hmsg : f.messages = [] := h f (by simp)
    have hpf : ∃ st'', processFile st f = .ok st'' ∧ st''.reg = st.reg := by
      unfold processFile
      by_cases hr : f.resolves = true
      · rw [if_pos hr]
        by_cases hp : st.paths.contains f.path = true
        · rw [if_pos hp, hmsg]
          exact ⟨_, rfl, rfl⟩
        · rw [if_neg hp]
          have hnames : topLevelNames f = [] := by
            unfold topLevelNames
            rw [hmsg]
            rfl
          rw [hnames]
          simp only [List.any_nil]
          rw [if_neg (by simp)]
          refine ⟨_, rfl, ?_⟩
          show loadMessageList st.reg f.messages = st.reg
          rw [hmsg]
          rfl
      · rw [if_neg hr]
        exact ⟨st, rfl, rfl⟩
    obtain ⟨st'', hok, hreg⟩ := hpf
    obtain ⟨st', hok', hreg'⟩ := ih st'' (fun g hg => h g (by simp [hg]))
    refine ⟨st', ?_, by rw [hreg', hreg]⟩
    have hstep : processFiles st (f :: rest) =
        match processFile st f with
        | .error e => .error e
        | .ok s => processFiles s rest := rfl
    rw [hstep, hok]
    exact hok'

/-- C5: when the registry ends up with zero message-type entries after all
files are processed — in particular whenever the descriptor set contains
zero message declarations — the load fails with `NoMessageTypesFound` and
`mkDecoder` returns no decoder. -/
theorem empty_schema_rejected (files : List FileDescr) (T : String)
    (h : ∀ f ∈ files, f.messages = []) :
    loadDescriptorSet files = .error .noMessageTypesFound ∧
    mkDecoder files T = .error .noMessageTypesFound := by
  obtain ⟨st', hok, hreg⟩ :=
    processFiles_reg_of_no_messages files ⟨[], [], []⟩ h
  have hload : loadDescriptorSet files = .error .noMessageTypesFound := by
    unfold loadDescriptorSet
    rw [hok]
    simp only [hreg]
    rfl
  refine ⟨hload, ?_⟩
  unfold mkDecoder
  rw [hload]
  rfl

/-- File descriptor with zero message declarations, for the C5 witness. -/
def emptyMessagesFile : FileDescr := ⟨"empty.proto", true, []⟩

/-- Witness for C5: a one-file descriptor set with no message declarations
is rejected. -/
theorem empty_schema_rejected_witness :
    (∀ f ∈ [emptyMessagesFile], f.messages = ([] : List MessageDescriptor)) ∧
    mkDecoder [emptyMessagesFile] "pkg.M" = .error .noMessageTypesFound := by
  refine ⟨?_, (empty_schema_rejected [emptyMessagesFile] "pkg.M" ?_).2⟩
  · intro f hf
    rcases List.mem_singleton.mp hf with rfl
    rfl
  · intro f hf
    rcases List.mem_singleton.mp hf with rfl
    rfl

/-- First file of the duplicate-name scenario: `pkg.Msg` with field `a`. -/
def msgA : MessageDescriptor := .mk "pkg.Msg" [⟨1, "a", .string⟩] []

/-- Second file's version of `pkg.Msg`, with field `b` instead. -/
def msgB : MessageDescriptor := .mk "pkg.Msg" [⟨1, "b", .string⟩] []

def fileA : FileDescr := ⟨"a.proto", true, [msgA]⟩

def fileB : FileDescr := ⟨"b.proto", true, [msgB]⟩

/-- Later descriptor-set entry for the same path `a.proto`, declaring
`pkg.Msg` with file B's shape. -/
def fileA2 : FileDescr := ⟨"a.proto", true, [msgB]⟩

/-- C6 counterexample: loading file `a.proto` defining `pkg.Msg` and then
file `b.proto` also defining `pkg.Msg` does not leave a last-write-wins
registry entry: `RegisterFile` rejects the full-name conflict between
distinct paths and `loadDescriptorSet` propagates it fatally, so no
decoder is returned at all. -/
theorem duplicate_type_name_counterexample :
    mkDecoder [fileA, fileB] "pkg.Msg" =
      .error (.registerFileFailed "b.proto") ∧
    ∀ d : Decoder, mkDecoder [fileA, fileB] "pkg.Msg" ≠ .ok d := by
  have h : mkDecoder [fileA, fileB] "pkg.Msg" =
      .error (.registerFileFailed "b.proto") := rfl
  refine ⟨h, ?_⟩
  intro d hok
  rw [h] at hok
  cases hok

/-- C6 (amended): registry keys stay unique and map assignment is
last-write-wins — inserting the same key twice leaves the second value —
and a duplicate of the same fully-qualified name loaded again from the
same file path overwrites without error, leaving exactly one entry (the
last-loaded one) with `MessageTypeCount` = 1; but two files with distinct
paths both defining `pkg.Msg` fail the whole load with a file-registration
error instead of overwriting. -/
theorem duplicate_type_name_last_write_wins :
    (∀ (reg : Registry) (k : String) (v₁ v₂ : MessageDescriptor),
      lookupType (insertType (insertType reg k v₁) k v₂) k = some v₂) ∧
    mkDecoder [fileA, fileA2] "pkg.Msg" =
      .ok { messageTypes := [("pkg.Msg", msgB)], defaultType := "pkg.Msg" } ∧
    MessageTypeCount
      { messageTypes := [("pkg.Msg", msgB)], defaultType := "pkg.Msg" } = 1 ∧
    mkDecoder [fileA, fileB] "pkg.Msg" =
      .error (.registerFileFailed "b.proto") := by
  refine ⟨?_, rfl, rfl, rfl⟩
  intro reg k v₁ v₂
  exact lookupType_insertType_self _ _ _

/-! ### Unknown-type claims -/

/-- Decoder whose configured default type is the empty string, while the
registry is non-empty, for the C2 counterexample. -/
def emptyTypeDecoder : Decoder :=
  { messageTypes := [("events.UserEvent", userEventDesc)], defaultType := "" }

/-- C2 counterexample: the empty string is a type name not present in the
registry, yet `Decode` configured with it fails with
`MessageTypeRequired`, not `UnknownMessageType`. -/
theorem unknown_type_counterexample :
    lookupType emptyTypeDecoder.messageTypes "" = none ∧
    Decode emptyTypeDecoder [] = ⟨none, "", some .messageTypeRequired⟩ ∧
    ∀ s, DecodeError.messageTypeRequired ≠ DecodeError.unknownMessageType s := by
  refine ⟨rfl, rfl, ?_⟩
  intro s h
  cases h

/-- C2 (amended): for every type name not present in the registry, the
encoder returns nil bytes with its unknown-type error — for any such
name, empty or not — and `Decode` returns the `UnknownMessageType` error
with nil JSON and an empty type name whenever the absent name configured
as the default type is nonempty (an empty configured name is rejected
earlier by `Decode` as `MessageTypeRequired`); neither ever partially
succeeds. -/
theorem unknown_type_errors
    (d : Decoder) (T : String) (b : List Nat) (j : JsonObj)
    (hnf : lookupType d.messageTypes T = none) :
    (T ≠ "" → d.defaultType = T →
      Decode d b = ⟨none, "", some (.unknownMessageType T)⟩) ∧
    encodeMessage d T j = ⟨none, some (.unknownMessageType T)⟩ := by
  constructor
  · intro hne hdt
    unfold Decode
    rw [hdt, if_neg hne]
    unfold decodeWithType
    rw [hnf]
  · unfold encodeMessage
    rw [hnf]

/-- Decoder configured with the scenario's unknown type name
`events.DoesNotExist`. -/
def unknownTypeDecoder : Decoder :=
  { messageTypes := [("events.UserEvent", userEventDesc)]
    defaultType := "events.DoesNotExist" }

/-- Witness for C2's amended claim at the spec's unknown-type scenario,
including the encoder at the empty type name. -/
theorem unknown_type_errors_witness :
    Decode unknownTypeDecoder [1] =
      ⟨none, "", some (.unknownMessageType "events.DoesNotExist")⟩ ∧
    encodeMessage unknownTypeDecoder "events.DoesNotExist" [] =
      ⟨none, some (.unknownMessageType "events.DoesNotExist")⟩ ∧
    encodeMessage emptyTypeDecoder "" [] =
      ⟨none, some (.unknownMessageType "")⟩ :=
  ⟨(unknown_type_errors unknownTypeDecoder "events.DoesNotExist" [1] []
      rfl).1 (by decide) rfl,
   (unknown_type_errors unknownTypeDecoder "events.DoesNotExist" [1] []
      rfl).2,
   (unknown_type_errors emptyTypeDecoder "" [1] [] rfl).2⟩

/-! ### Malformed-bytes claim -/

/-- C3: for every byte sequence that is not valid wire format for the
configured message type, `Decode` returns the wire-format error with nil
JSON and an empty type name; and on any failure whatsoever the result is
exactly `(nil, "", err)` — no partially-populated JSON is ever
returned. -/
theorem malformed_bytes_error
    (d : Decoder) (b : List Nat) (desc : MessageDescriptor)
    (hne : d.defaultType ≠ "")
    (hT : lookupType d.messageTypes d.defaultType = some desc)
    (hbad : unmarshalMessage desc.fields b = none) :
    Decode d b = ⟨none, "", some .wireFormatError⟩ ∧
    ∀ (d' : Decoder) (b' : List Nat), (Decode d' b').err ≠ none →
      (Decode d' b').json = none ∧ (Decode d' b').typeName = "" := by
  constructor
  · unfold Decode
    rw [if_neg hne]
    unfold decodeWithType
    rw [hT]
    simp only
    rw [hbad]
  · intro d' b' herr
    unfold Decode at herr ⊢
    by_cases hdt : d'.defaultType = ""
    · rw [if_pos hdt]
      exact ⟨rfl, rfl⟩
    · rw [if_neg hdt] at herr ⊢
      unfold decodeWithType at herr ⊢
      cases hL : lookupType d'.messageTypes d'.defaultType with
      | none => exact ⟨rfl, rfl⟩
      | some ds =>
        simp only at herr ⊢
        cases hU : unmarshalMessage ds.fields b' with
        | none => exact ⟨rfl, rfl⟩
        | some mm =>
          rw [hL] at herr
          simp only at herr
          rw [hU] at herr
          simp at herr

/-- Witness for C3 at the concrete malformed input `[8]` (a field-1
varint tag with the stream ending before the value). -/
theorem malformed_bytes_error_witness :
    (Decode sampleDecoder [8] = ⟨none, "", some .wireFormatError⟩ ∧
      ∀ (d' : Decoder) (b' : List Nat), (Decode d' b').err ≠ none →
        (Decode d' b').json = none ∧ (Decode d' b').typeName = "") ∧
    unmarshalMessage userEventDesc.fields [8] = none :=
  ⟨malformed_bytes_error sampleDecoder [8] userEventDesc
    (by decide) rfl rfl, rfl⟩

/-! ### Purity / determinism claim -/

/-- C9: `Decode` and the encoder are pure functions of the decoder state
and their input: `Decode`'s result depends only on the configured default
type and that type's registry entry, and the encoder's only on the looked
up entry, so two invocations on the same input always return identical
JSON bytes, type name and error.  (The registry is read-only after
construction; nothing else flows into the result.) -/
theorem decode_encode_pure_deterministic :
    (∀ (d₁ d₂ : Decoder) (b : List Nat),
      d₁.defaultType = d₂.defaultType →
      lookupType d₁.messageTypes d₁.defaultType =
        lookupType d₂.messageTypes d₂.defaultType →
      Decode d₁ b = Decode d₂ b) ∧
    (∀ (d₁ d₂ : Decoder) (T : String) (j : JsonObj),
      lookupType d₁.messageTypes T = lookupType d₂.messageTypes T →
      encodeMessage d₁ T j = encodeMessage d₂ T j) := by
  constructor
  · intro d₁ d₂ b hdt hlk
    unfold Decode
    rw [hdt]
    by_cases h : d₂.defaultType = ""
    · rw [if_pos h, if_pos h]
    · rw [if_neg h, if_neg h]
      unfold decodeWithType
      rw [hdt] at hlk
      rw [hlk]
  · intro d₁ d₂ T j hlk
    unfold encodeMessage
    rw [hlk]

/-- Witness for C9: two invocations of `Decode` on the same decoder and
input agree. -/
theorem decode_encode_pure_deterministic_witness :
    Decode sampleDecoder [3] = Decode sampleDecoder [3] :=
  decode_encode_pure_deterministic.1 sampleDecoder sampleDecoder [3] rfl rfl

/-! ### Empty-input claim -/

theorem messageToJson_nil_msg (fields : List FieldDescr) :
    messageToJson fields [] = [] := by
  induction fields with
  | nil => rfl
  | cons f rest ih =>
    unfold messageToJson
    simp only [msgLookup, List.nil_append]
    exact ih

/-- C10: with the configured default type present in the registry,
`Decode` on an empty byte slice succeeds: empty input is valid wire
format for every message type, and the result is a JSON object with no
populated fields, the configured type name, and no error. -/
theorem decode_empty_input_succeeds
    (d : Decoder) (desc : MessageDescriptor)
    (hne : d.defaultType ≠ "")
    (hT : lookupType d.messageTypes d.defaultType = some desc) :
    Decode d [] = ⟨some [], d.defaultType, none⟩ := by
  unfold Decode
  rw [if_neg hne]
  unfold decodeWithType
  rw [hT]
  simp only
  have hu : unmarshalMessage desc.fields [] = some [] := by
    unfold unmarshalMessage
    rw [parseRecords_nil]
    rfl
  rw [hu]
  simp only
  rw [messageToJson_nil_msg]

/-- Witness for C10: the scenario decoder on empty input. -/
theorem decode_empty_input_succeeds_witness :
    Decode sampleDecoder [] = ⟨some [], sampleDecoder.defaultType, none⟩ :=
  decode_empty_input_succeeds sampleDecoder userEventDesc (by decide) rfl

/-- Witness for C1 at the spec's basic round-trip scenario:
`{"user_id":"u1","event_type":"LOGIN"}` for `events.UserEvent`. -/
theorem decode_encode_roundtrip_witness :
    ∃ bs : List Nat,
      encodeMessage sampleDecoder "events.UserEvent" sampleJson =
        ⟨some bs, none⟩ ∧
      ∃ out : JsonObj,
        decodeWithType sampleDecoder bs "events.UserEvent" =
          ⟨some out, "events.UserEvent", none⟩ ∧
        (out.map Prod.fst).Nodup ∧
        ∀ k, objLookup out k = objLookup (canonicalize sampleJson) k :=
  decode_encode_roundtrip sampleDecoder "events.UserEvent" userEventDesc
    sampleJson rfl (by decide) (by decide)

/-! ### Strict JSON matching claim -/

theorem findByName_eq_none {fields : List FieldDescr} {k : String}
    (h : ∀ f ∈ fields, f.name ≠ k) : findByName fields k = none := by
  induction fields with
  | nil => rfl
  | cons f rest ih =>
    simp only [findByName, if_neg (h f (by simp))]
    exact ih (fun g hg => h g (by simp [hg]))

theorem jsonToMessage_none_of_unmatched {fields : List FieldDescr}
    {j : JsonObj} {k : String} {v : Value} (hkv : (k, v) ∈ j)
    (hno : ∀ f ∈ fields, f.name ≠ k) :
    jsonToMessage fields j = none := by
  induction j with
  | nil => cases hkv
  | cons kv rest ih =>
    cases kv with
    | mk k' v' =>
      rcases List.mem_cons.mp hkv with he | hm
      · cases he
        simp only [jsonToMessage, findByName_eq_none hno]
      · simp only [jsonToMessage]
        cases hfind : findByName fields k' with
        | none => rfl
        | some f =>
          simp only
          by_cases hty : typeMatches f.typ v' = true
          · rw [if_pos hty, ih hm]
            rfl
          · rw [if_neg hty]

/-- C8: the encoder unmarshals JSON strictly: whenever the input object
contains a key naming no field of the target type, encoding fails with
the JSON-unmarshal error and produces no bytes, rather than silently
discarding the field.  (`AllowPartial: false` adds nothing observable for
proto3 dynamic messages, which have no required fields.) -/
theorem strict_json_matching
    (d : Decoder) (T : String) (desc : MessageDescriptor) (j : JsonObj)
    (k : String) (v : Value)
    (hT : lookupType d.messageTypes T = some desc)
    (hkv : (k, v) ∈ j)
    (hno : ∀ f ∈ desc.fields, f.name ≠ k) :
    encodeMessage d T j = ⟨none, some .jsonUnmarshalError⟩ := by
  unfold encodeMessage
  rw [hT]
  simp only
  rw [jsonToMessage_none_of_unmatched hkv hno]

/-- Witness for C8: a JSON object with the unknown key `bogus` is
rejected by the scenario decoder. -/
theorem strict_json_matching_witness :
    encodeMessage sampleDecoder "events.UserEvent" [("bogus", .vstr [])] =
      ⟨none, some .jsonUnmarshalError⟩ :=
  strict_json_matching sampleDecoder "events.UserEvent" userEventDesc
    [("bogus", .vstr [])] "bogus" (.vstr []) rfl (by simp) (by decide)

/-! ### Schema-source classification claim -/

/-- Ambiguous-extension file whose bytes parse as a single
file-descriptor message but not as a descriptor set (realizable, e.g. as
the bytes `[0x0A, 0x01, 0x00]`), for the C7 counterexample. -/
def ambiguousBlobFile : SchemaFile :=
  { path := "data.bin", parsesAsSet := false, parsesAsProto := true }

/-- C7 counterexample: a file with the ambiguous extension `.bin` whose
bytes do not parse as a descriptor-set message is still treated as a blob
by `isDescriptorSetFile` when they parse as a single file-descriptor
message, contradicting the claim's "blob if and only if the bytes parse
as a serialized descriptor-set message". -/
theorem schema_source_classification_counterexample :
    isDescriptorSetFile ambiguousBlobFile = true ∧
    claimIsDescriptorSet ambiguousBlobFile = false := by
  constructor <;> rfl

/-- C7 (amended): the classifier treats blob extensions
(`.desc`/`.pb`/`.protoset`) as blobs and `.yaml`/`.yml` as
schema-definition entry points; any other path is a blob if and only if
its raw bytes parse as a serialized descriptor-set message or as a single
serialized file-descriptor message, and otherwise falls back to an entry
point for external compilation. -/
theorem schema_source_classification (f : SchemaFile) :
    isDescriptorSetFile f = claimIsDescriptorSetAmended f := by
  unfold isDescriptorSetFile claimIsDescriptorSetAmended
  by_cases h1 : ext f.path = ".desc" <;>
    by_cases h2 : ext f.path = ".pb" <;>
    by_cases h3 : ext f.path = ".protoset" <;>
    by_cases h4 : ext f.path = ".yaml" <;>
    by_cases h5 : ext f.path = ".yml" <;>
    by_cases h6 : ext f.path = "" <;>
    simp_all

end BufKcat
